import Mathlib

/-!
Chunk planning, mirror selection and retry in `core/downloader.go`

A shallow embedding of the `Downloader` methods of `src/core/downloader.go`:

* `calculateConcurrentWorker` and `calculateChunk` over exact integers, with Go's
  truncating `/` and `%` and its run-time panics made explicit;
* the same two functions over `int64` (every operator wraps modulo `2^64`) and in a
  checked form that stops at the first operator whose exact result leaves `int64`;
* `getHostName` and the sequential part of `Execute` (slice allocation, the loop that
  creates the channels and launches the workers) as explicit state passing;
* `DownloadWorker` as a function of what the network does to each attempt.

Go's `int64` values are integers; `log.Fatal`, `log.Fatalf` and run-time panics are
the error side of `Except Abort`.
-/

namespace Core

/-! ## Data model -/

/-- Reasons for which the process stops before `Execute` or a worker returns. -/
inductive Abort where
  /-- Run-time panic of `/` or `%` with a zero divisor. -/
  | divideByZero
  /-- Run-time panic of a slice index outside the slice. -/
  | indexOutOfRange
  /-- Run-time panic of `make` with a negative length. -/
  | makeSliceLen
  /-- The `log.Fatal(err)` of `getHostName` after `url.Parse` fails. -/
  | urlParse
  /-- The `log.Fatalf` of `DownloadWorker` after `http.NewRequest` fails. -/
  | requestCreate
  /-- The `log.Fatalf` of `DownloadWorker` after `http.DefaultClient.Do` fails. -/
  | requestDo
  deriving DecidableEq, Repr

/-- Modelled from the spec: the `FileDetails` type is declared outside
`downloader.go`; it holds the resource name, its total size in bytes and the ordered
mirror URLs. `Urls.GetUrls()` is the list `Urls`, `Urls.GetSize()` its length and
`Urls.GetFirstUrl()` its first element. -/
structure FileDetails where
  Name : String
  Size : Int
  Urls : List String
  deriving DecidableEq, Repr

/-- The `Downloader` struct (lines 15-20). -/
structure Downloader where
  File : FileDetails
  ChunkSize : Int
  NumberOfChunks : Int
  SingleProgressBar : Bool
  deriving DecidableEq, Repr

deriving instance DecidableEq for Except

/-! ## Go integer operators -/

/-- Go's `a / b` on exact integers: truncation toward zero, panic on a zero divisor. -/
def goDiv (a b : Int) : Except Abort Int :=
  if b = 0 then .error .divideByZero else .ok (Int.tdiv a b)

/-- Go's `a % b` on exact integers: remainder of the truncating division, panic on a
zero divisor. -/
def goMod (a b : Int) : Except Abort Int :=
  if b = 0 then .error .divideByZero else .ok (Int.tmod a b)

/-- The values of Go's `int64`. -/
def inInt64 (x : Int) : Prop := -(2 : Int) ^ 63 ≤ x ∧ x < (2 : Int) ^ 63

instance (x : Int) : Decidable (inInt64 x) := by
  unfold inInt64
  infer_instance

/-- Reduction of an exact result to the `int64` value Go stores (two's complement). -/
def wrap64 (x : Int) : Int := (x + (2 : Int) ^ 63) % (2 : Int) ^ 64 - (2 : Int) ^ 63

/-- The exact result when it is an `int64`, nothing when the operator overflows. -/
def chk64 (x : Int) : Option Int := if inInt64 x then some x else none

/-! ## Worker count (lines 139-147) -/

/-- Method `calculateConcurrentWorker` over exact integers. -/
def calculateConcurrentWorker (d : Downloader) (fileSize : Int) : Except Abort Int :=
  if d.NumberOfChunks ≠ 0 then
    .ok d.NumberOfChunks
  else if fileSize < d.ChunkSize then
    .ok 1
  else
    goDiv d.File.Size d.ChunkSize

/-- Method `calculateConcurrentWorker` over `int64`: the quotient wraps. -/
def calculateConcurrentWorker64 (d : Downloader) (fileSize : Int) : Except Abort Int :=
  if d.NumberOfChunks ≠ 0 then
    .ok d.NumberOfChunks
  else if fileSize < d.ChunkSize then
    .ok 1
  else
    (goDiv d.File.Size d.ChunkSize).map wrap64

/-- Method `calculateConcurrentWorker` with the division checked: nothing on a zero divisor
or a quotient outside `int64`. -/
def calculateConcurrentWorkerChecked (d : Downloader) (fileSize : Int) : Option Int :=
  if d.NumberOfChunks ≠ 0 then
    some d.NumberOfChunks
  else if fileSize < d.ChunkSize then
    some 1
  else if d.ChunkSize = 0 then
    none
  else
    chk64 (Int.tdiv d.File.Size d.ChunkSize)

/-! ## Byte range of one chunk (lines 79-88) -/

/-- Method `calculateChunk` over exact integers: `(startByte, endByte, currentChunkSize)`. -/
def calculateChunk (d : Downloader) (i numberOfChunks : Int) (fileDetails : FileDetails) :
    Int × Int × Int :=
  let startByte := i * d.ChunkSize
  let endByte := startByte + d.ChunkSize - 1
  let endByte :=
    if i + 1 = numberOfChunks ∨ endByte > fileDetails.Size - 1 then fileDetails.Size - 1
    else endByte
  let currentChunkSize := endByte - startByte + 1
  (startByte, endByte, currentChunkSize)

/-- Method `calculateChunk` over `int64`: every operator wraps. -/
def calculateChunk64 (d : Downloader) (i numberOfChunks : Int) (fileDetails : FileDetails) :
    Int × Int × Int :=
  let startByte := wrap64 (i * d.ChunkSize)
  let endByte := wrap64 (wrap64 (startByte + d.ChunkSize) - 1)
  let endByte :=
    if wrap64 (i + 1) = numberOfChunks ∨ endByte > wrap64 (fileDetails.Size - 1) then
      wrap64 (fileDetails.Size - 1)
    else endByte
  let currentChunkSize := wrap64 (wrap64 (endByte - startByte) + 1)
  (startByte, endByte, currentChunkSize)

/-- Method `calculateChunk` with every operator checked, in evaluation order: the product,
the sum, the decrement, `i+1`, `Size-1` (when the `||` reaches it, and in the
assignment), the difference and the increment. -/
def calculateChunkChecked (d : Downloader) (i numberOfChunks : Int)
    (fileDetails : FileDetails) : Option (Int × Int × Int) := do
  let startByte ← chk64 (i * d.ChunkSize)
  let sum ← chk64 (startByte + d.ChunkSize)
  let endByte ← chk64 (sum - 1)
  let next ← chk64 (i + 1)
  let clamp ←
    if next = numberOfChunks then pure true
    else do
      let last ← chk64 (fileDetails.Size - 1)
      pure (decide (endByte > last))
  let endByte ← if clamp then chk64 (fileDetails.Size - 1) else pure endByte
  let diff ← chk64 (endByte - startByte)
  let currentChunkSize ← chk64 (diff + 1)
  pure (startByte, endByte, currentChunkSize)

/-! ## Mirror selection (lines 65-77) -/

/-- Method `getHostName`: the first mirror for a negative counter, `GetUrls()[counter]`
otherwise; `urlParse` stands for `url.Parse` followed by `.Host` and gives nothing
when parsing fails. Returns `(host, fileUrl)`. -/
def getHostName (d : Downloader) (urlParse : String → Option String) (counter : Int) :
    Except Abort (String × String) := do
  let fileUrl := d.File.Urls.headD ""
  let fileUrl ←
    if counter ≥ 0 then
      match d.File.Urls[counter.toNat]? with
      | some u => pure u
      | none => throw Abort.indexOutOfRange
    else pure fileUrl
  match urlParse fileUrl with
  | none => throw Abort.urlParse
  | some host => pure (host, fileUrl)

/-- The spec's mirror selector `selectURL(chunkIndex, mirrors)`: round-robin,
`mirrors[chunkIndex mod mirrorCount]`. -/
def selectURL (mirrors : List String) (chunkIndex : Nat) : Option String :=
  mirrors[chunkIndex % mirrors.length]?

/-! ## The planning loop of `Execute` (lines 22-52) -/

/-- One `go d.DownloadWorker(fileUrl, startByte, endByte, &wg, bars, &chunks[i])`. -/
structure Worker where
  chunk : Int
  fileUrl : String
  startByte : Int
  endByte : Int
  deriving DecidableEq, Repr

/-- State of `Execute` while it plans: the slice `chunks` (an entry is `true` once
`make(chan []byte)` has filled it, `false` while it is nil) and the workers launched
so far, in launch order. -/
structure Planning where
  chunks : List Bool
  workers : List Worker
  deriving DecidableEq, Repr

/-- Body of the loop of lines 36-52 for chunk `i`. -/
def executeStep (d : Downloader) (urlParse : String → Option String)
    (fileDetails : FileDetails) (numberOfChunks : Int) (i : Nat) (st : Planning) :
    Except Abort Planning := do
  let st := Planning.mk (st.chunks.set i true) st.workers
  let (startByte, endByte, currentChunkSize) :=
    calculateChunk d i numberOfChunks fileDetails
  if currentChunkSize ≤ 0 then
    pure st
  else do
    let counter ← goMod i fileDetails.Urls.length
    let (_, fileUrl) ← getHostName d urlParse counter
    pure (Planning.mk st.chunks (st.workers ++ [Worker.mk i fileUrl startByte endByte]))

/-- The loop `for i := int64(0); i < numberOfChunks; i++` run over the indices it
visits. -/
def executeLoop (d : Downloader) (urlParse : String → Option String)
    (fileDetails : FileDetails) (numberOfChunks : Int) :
    List Nat → Planning → Except Abort Planning
  | [], st => pure st
  | i :: rest, st => do
    let st ← executeStep d urlParse fileDetails numberOfChunks i st
    executeLoop d urlParse fileDetails numberOfChunks rest st

/-- Method `Execute` up to the call of `WriteToFile`: `fileDetails` is what
`d.File.GetFileDetails()` returned; the result holds the channel list handed to
`WriteToFile` and the workers launched. Progress bars carry no data. -/
def Execute (d : Downloader) (urlParse : String → Option String)
    (fileDetails : FileDetails) : Except Abort Planning := do
  let numberOfChunks ← calculateConcurrentWorker d fileDetails.Size
  if numberOfChunks < 0 then throw Abort.makeSliceLen
  if d.SingleProgressBar then
    let _ ← getHostName d urlParse (-1)
  executeLoop d urlParse fileDetails numberOfChunks (List.range numberOfChunks.toNat)
    (Planning.mk (List.replicate numberOfChunks.toNat false) [])

/-- The plan: `calculateChunk i n` for `i = 0 .. n-1` with `n` the worker count,
keeping the entries `Execute` does not skip (`currentChunkSize > 0`). -/
def chunkPlan (d : Downloader) (fileDetails : FileDetails) :
    Except Abort (List (Int × Int × Int)) := do
  let numberOfChunks ← calculateConcurrentWorker d fileDetails.Size
  pure (((List.range numberOfChunks.toNat).map
    (fun i : Nat => calculateChunk d i numberOfChunks fileDetails)).filter
      (fun c => decide (0 < c.2.2)))

/-! ## The fetch worker (lines 106-137) -/

/-- What happens to one attempt of `DownloadWorker`. -/
inductive Attempt where
  /-- Call of `http.NewRequest` returns an error. -/
  | newRequestFails
  /-- Call of `http.DefaultClient.Do` returns an error. -/
  | doFails
  /-- Call of `io.ReadAll` returns an error. -/
  | readFails
  /-- Call of `io.ReadAll` returns the body. -/
  | readOk (data : List Nat)
  deriving DecidableEq, Repr

/-- Trace of one `DownloadWorker`: loop iterations begun, the range requests handed
to `http.DefaultClient.Do` as `(url, startByte, endByte)`, the payloads sent on the
chunk channel, and the fatal exit if one was taken. -/
structure WorkerRun where
  attempts : Nat
  requests : List (String × Int × Int)
  sent : List (List Nat)
  fatal : Option Abort
  deriving DecidableEq, Repr

/-- The retry loop `for i := 0; i < maxRetry; i++` run over the attempts left. -/
def downloadLoop (net : Nat → Attempt) (fileUrl : String) (startByte endByte : Int) :
    List Nat → WorkerRun → WorkerRun
  | [], run => run
  | i :: rest, run =>
    let run := WorkerRun.mk (run.attempts + 1) run.requests run.sent run.fatal
    match net i with
    | .newRequestFails =>
      WorkerRun.mk run.attempts run.requests run.sent (some Abort.requestCreate)
    | .doFails =>
      WorkerRun.mk run.attempts (run.requests ++ [(fileUrl, startByte, endByte)]) run.sent
        (some Abort.requestDo)
    | .readFails =>
      downloadLoop net fileUrl startByte endByte rest
        (WorkerRun.mk run.attempts (run.requests ++ [(fileUrl, startByte, endByte)])
          run.sent run.fatal)
    | .readOk data =>
      WorkerRun.mk run.attempts (run.requests ++ [(fileUrl, startByte, endByte)])
        (run.sent ++ [data]) run.fatal

/-- The constant `maxRetry` of line 109. -/
def maxRetry : Nat := 3

/-- Method `DownloadWorker`: `net i` is what the network does to attempt `i` (from 0). -/
def DownloadWorker (net : Nat → Attempt) (fileUrl : String) (startByte endByte : Int) :
    WorkerRun :=
  downloadLoop net fileUrl startByte endByte (List.range maxRetry) (WorkerRun.mk 0 [] [] none)

/-! ## Worker count -/

theorem worker_explicit (d : Downloader) (fileSize : Int) (h : d.NumberOfChunks ≠ 0) :
    calculateConcurrentWorker d fileSize = .ok d.NumberOfChunks := by
  simp [calculateConcurrentWorker, h]

theorem worker_auto_small (d : Downloader) (fileSize : Int) (h0 : d.NumberOfChunks = 0)
    (hlt : fileSize < d.ChunkSize) : calculateConcurrentWorker d fileSize = .ok 1 := by
  simp [calculateConcurrentWorker, h0, hlt]

theorem worker_auto_large (d : Downloader) (fileSize : Int) (h0 : d.NumberOfChunks = 0)
    (hcs : 0 < d.ChunkSize) (hge : d.ChunkSize ≤ fileSize) (hsz : d.File.Size = fileSize) :
    calculateConcurrentWorker d fileSize = .ok (fileSize / d.ChunkSize) := by
  have hne : d.ChunkSize ≠ 0 := by omega
  have hdiv : Int.tdiv fileSize d.ChunkSize = fileSize / d.ChunkSize :=
    Int.tdiv_eq_ediv (by omega) (by omega)
  simp [calculateConcurrentWorker, h0, not_lt.mpr hge, goDiv, hne, hsz, hdiv]

theorem worker_pos (d : Downloader) (fileSize : Int) (hN : 0 ≤ d.NumberOfChunks)
    (hcs : 0 < d.ChunkSize) (hsz : d.File.Size = fileSize) :
    ∃ n : Int, calculateConcurrentWorker d fileSize = .ok n ∧ 1 ≤ n := by
  by_cases h0 : d.NumberOfChunks = 0
  · by_cases hlt : fileSize < d.ChunkSize
    · exact ⟨1, worker_auto_small d fileSize h0 hlt, le_refl 1⟩
    · refine ⟨fileSize / d.ChunkSize,
        worker_auto_large d fileSize h0 hcs (not_lt.mp hlt) hsz, ?_⟩
      exact Int.le_ediv_of_mul_le hcs (by omega)
  · exact ⟨d.NumberOfChunks, worker_explicit d fileSize h0, by omega⟩

/-! ## Byte range of one chunk -/

theorem calculateChunk_inner (d : Downloader) (i n : Int) (fd : FileDetails)
    (hn : i + 1 ≠ n) (hfit : i * d.ChunkSize + d.ChunkSize ≤ fd.Size) :
    calculateChunk d i n fd =
      (i * d.ChunkSize, i * d.ChunkSize + d.ChunkSize - 1, d.ChunkSize) := by
  have hgt : ¬ (i * d.ChunkSize + d.ChunkSize - 1 > fd.Size - 1) := by omega
  simp only [calculateChunk, hn, hgt, or_self, if_false]
  refine Prod.ext rfl (Prod.ext rfl ?_)
  show i * d.ChunkSize + d.ChunkSize - 1 - i * d.ChunkSize + 1 = d.ChunkSize
  omega

theorem calculateChunk_clamped (d : Downloader) (i n : Int) (fd : FileDetails)
    (h : i + 1 = n ∨ fd.Size ≤ i * d.ChunkSize + d.ChunkSize) :
    calculateChunk d i n fd =
      (i * d.ChunkSize, fd.Size - 1, fd.Size - i * d.ChunkSize) := by
  unfold calculateChunk
  by_cases hc : i + 1 = n ∨ i * d.ChunkSize + d.ChunkSize - 1 > fd.Size - 1
  · simp only [hc, if_true]
    refine Prod.ext rfl (Prod.ext rfl ?_)
    show fd.Size - 1 - i * d.ChunkSize + 1 = fd.Size - i * d.ChunkSize
    omega
  · have heq : i * d.ChunkSize + d.ChunkSize = fd.Size := by
      rcases h with h | h
      · exact absurd (Or.inl h) hc
      · have : ¬ (i * d.ChunkSize + d.ChunkSize - 1 > fd.Size - 1) := fun h2 => hc (Or.inr h2)
        omega
    simp only [hc, if_false]
    refine Prod.ext rfl (Prod.ext ?_ ?_)
    · show i * d.ChunkSize + d.ChunkSize - 1 = fd.Size - 1
      omega
    · show i * d.ChunkSize + d.ChunkSize - 1 - i * d.ChunkSize + 1 = fd.Size - i * d.ChunkSize
      omega

theorem auto_quotient_bounds (fs cs : Int) (hcs : 0 < cs) :
    fs / cs * cs ≤ fs ∧ fs < fs / cs * cs + cs ∧ fs % cs = fs - fs / cs * cs := by
  have h1 := Int.ediv_add_emod fs cs
  have h2 := Int.emod_nonneg fs (ne_of_gt hcs)
  have h3 := Int.emod_lt_of_pos fs hcs
  have h4 : cs * (fs / cs) = fs / cs * cs := mul_comm _ _
  refine ⟨?_, ?_, ?_⟩ <;> omega

theorem chunkPlan_of_worker (d : Downloader) (fd : FileDetails) (n : Int)
    (hn : calculateConcurrentWorker d fd.Size = .ok n) :
    chunkPlan d fd = .ok (((List.range n.toNat).map
      (fun i : Nat => calculateChunk d i n fd)).filter (fun c => decide (0 < c.2.2))) := by
  simp [chunkPlan, hn, bind, Except.bind, pure, Except.pure]

/-- C3: without an explicit chunk count and with the file smaller than the chunk
size, the worker count is 1 and chunk 0 of 1 is `(0, fileSize - 1, fileSize)`; for a
non-empty file the plan is that single chunk. -/
theorem small_file_single_chunk (d : Downloader) (fd : FileDetails)
    (h0 : d.NumberOfChunks = 0) (hlt : fd.Size < d.ChunkSize) :
    calculateConcurrentWorker d fd.Size = .ok 1 ∧
    calculateChunk d 0 1 fd = (0, fd.Size - 1, fd.Size) ∧
    (0 < fd.Size → chunkPlan d fd = .ok [(0, fd.Size - 1, fd.Size)]) := by
  have hw := worker_auto_small d fd.Size h0 hlt
  have hc : calculateChunk d 0 1 fd = (0, fd.Size - 1, fd.Size) := by
    rw [calculateChunk_clamped d 0 1 fd (Or.inl (by norm_num))]
    simp
  refine ⟨hw, hc, ?_⟩
  intro hpos
  rw [chunkPlan_of_worker d fd 1 hw]
  have : (List.range (1 : Int).toNat) = [0] := by decide
  rw [this]
  simp only [List.map_cons, List.map_nil, Nat.cast_zero, hc]
  simp [hpos]

theorem small_file_single_chunk_witness :
    calculateConcurrentWorker ⟨⟨"file", 10, ["http://a/file"]⟩, 100, 0, false⟩ 10 = .ok 1 ∧
    calculateChunk ⟨⟨"file", 10, ["http://a/file"]⟩, 100, 0, false⟩ 0 1
      ⟨"file", 10, ["http://a/file"]⟩ = (0, 9, 10) ∧
    chunkPlan ⟨⟨"file", 10, ["http://a/file"]⟩, 100, 0, false⟩
      ⟨"file", 10, ["http://a/file"]⟩ = .ok [(0, 9, 10)] := by
  have h := small_file_single_chunk ⟨⟨"file", 10, ["http://a/file"]⟩, 100, 0, false⟩
    ⟨"file", 10, ["http://a/file"]⟩ rfl (by decide)
  exact ⟨h.1, h.2.1, h.2.2 (by decide)⟩

theorem chunkPlan_all_kept (d : Downloader) (fd : FileDetails) (n : Int)
    (hn : calculateConcurrentWorker d fd.Size = .ok n)
    (hall : ∀ i : Nat, (i : Int) < n → 0 < (calculateChunk d i n fd).2.2) :
    chunkPlan d fd = .ok ((List.range n.toNat).map
      (fun i : Nat => calculateChunk d i n fd)) := by
  rw [chunkPlan_of_worker d fd n hn]
  congr 1
  rw [List.filter_eq_self]
  intro c hc
  obtain ⟨i, hi, rfl⟩ := List.mem_map.mp hc
  have hi2 : i < n.toNat := List.mem_range.mp hi
  exact decide_eq_true (hall i (by omega))

/-- C4: without an explicit chunk count, with `0 < chunkSize <= fileSize` and
`File.Size = fileSize`, the worker count is `n = fileSize / chunkSize >= 1`; every
chunk before the last is `(i*chunkSize, i*chunkSize + chunkSize - 1, chunkSize)`, the
last one ends at `fileSize - 1` and has size `chunkSize + fileSize % chunkSize`; no
chunk is degenerate, so the plan has all `n` chunks; when `chunkSize` divides
`fileSize` every chunk has size `chunkSize`. -/
theorem auto_plan_sizes (d : Downloader) (fd : FileDetails)
    (h0 : d.NumberOfChunks = 0) (hcs : 0 < d.ChunkSize) (hge : d.ChunkSize ≤ fd.Size)
    (hsz : d.File.Size = fd.Size) :
    calculateConcurrentWorker d fd.Size = .ok (fd.Size / d.ChunkSize) ∧
    1 ≤ fd.Size / d.ChunkSize ∧
    (∀ i : Int, 0 ≤ i → i < fd.Size / d.ChunkSize - 1 →
      calculateChunk d i (fd.Size / d.ChunkSize) fd =
        (i * d.ChunkSize, i * d.ChunkSize + d.ChunkSize - 1, d.ChunkSize)) ∧
    calculateChunk d (fd.Size / d.ChunkSize - 1) (fd.Size / d.ChunkSize) fd =
      ((fd.Size / d.ChunkSize - 1) * d.ChunkSize, fd.Size - 1,
        d.ChunkSize + fd.Size % d.ChunkSize) ∧
    (∀ i : Int, 0 ≤ i → i < fd.Size / d.ChunkSize →
      0 < (calculateChunk d i (fd.Size / d.ChunkSize) fd).2.2) ∧
    (d.ChunkSize ∣ fd.Size → ∀ i : Int, 0 ≤ i → i < fd.Size / d.ChunkSize →
      (calculateChunk d i (fd.Size / d.ChunkSize) fd).2.2 = d.ChunkSize) ∧
    chunkPlan d fd = .ok ((List.range (fd.Size / d.ChunkSize).toNat).map
      (fun i : Nat => calculateChunk d i (fd.Size / d.ChunkSize) fd)) ∧
    ∃ plan, chunkPlan d fd = .ok plan ∧ (plan.length : Int) = fd.Size / d.ChunkSize := by
  obtain ⟨hq1, hq2, hq3⟩ := auto_quotient_bounds fd.Size d.ChunkSize hcs
  have hw := worker_auto_large d fd.Size h0 hcs hge hsz
  have hn1 : 1 ≤ fd.Size / d.ChunkSize := Int.le_ediv_of_mul_le hcs (by omega)
  generalize fd.Size / d.ChunkSize = n at *
  have hinner : ∀ i : Int, 0 ≤ i → i < n - 1 →
      calculateChunk d i n fd =
        (i * d.ChunkSize, i * d.ChunkSize + d.ChunkSize - 1, d.ChunkSize) := by
    intro i _ hi
    apply calculateChunk_inner d i n fd (by omega)
    have h1 : (i + 1) * d.ChunkSize ≤ (n - 1) * d.ChunkSize :=
      mul_le_mul_of_nonneg_right (by omega) (le_of_lt hcs)
    have h2 : (i + 1) * d.ChunkSize = i * d.ChunkSize + d.ChunkSize := by ring
    have h3 : (n - 1) * d.ChunkSize = n * d.ChunkSize - d.ChunkSize := by ring
    omega
  have hlast : calculateChunk d (n - 1) n fd =
      ((n - 1) * d.ChunkSize, fd.Size - 1, d.ChunkSize + fd.Size % d.ChunkSize) := by
    rw [calculateChunk_clamped d (n - 1) n fd (Or.inl (by omega))]
    have h3 : (n - 1) * d.ChunkSize = n * d.ChunkSize - d.ChunkSize := by ring
    refine Prod.ext rfl (Prod.ext rfl ?_)
    show fd.Size - (n - 1) * d.ChunkSize = d.ChunkSize + fd.Size % d.ChunkSize
    omega
  have hpos : ∀ i : Int, 0 ≤ i → i < n → 0 < (calculateChunk d i n fd).2.2 := by
    intro i hi0 hin
    by_cases hl : i = n - 1
    · subst hl
      rw [hlast]
      show 0 < d.ChunkSize + fd.Size % d.ChunkSize
      have := Int.emod_nonneg fd.Size (ne_of_gt hcs)
      omega
    · rw [hinner i hi0 (by omega)]
      exact hcs
  have hplan := chunkPlan_all_kept d fd n hw (fun i hi => hpos i (by omega) hi)
  refine ⟨hw, hn1, hinner, hlast, hpos, ?_, hplan, ?_⟩
  · intro hdvd i hi0 hin
    by_cases hl : i = n - 1
    · subst hl
      rw [hlast]
      show d.ChunkSize + fd.Size % d.ChunkSize = d.ChunkSize
      rw [Int.emod_eq_zero_of_dvd hdvd]
      omega
    · rw [hinner i hi0 (by omega)]
  · refine ⟨_, hplan, ?_⟩
    simp only [List.length_map, List.length_range]
    omega

theorem auto_plan_sizes_witness :
    calculateConcurrentWorker ⟨⟨"file", 10000000, ["http://a/file"]⟩, 2000000, 0, false⟩
      10000000 = .ok 5 ∧
    (chunkPlan ⟨⟨"file", 10000000, ["http://a/file"]⟩, 2000000, 0, false⟩
      ⟨"file", 10000000, ["http://a/file"]⟩).map (fun plan => plan.map (fun c => c.2.2)) =
      .ok [2000000, 2000000, 2000000, 2000000, 2000000] := by
  have h := auto_plan_sizes ⟨⟨"file", 10000000, ["http://a/file"]⟩, 2000000, 0, false⟩
    ⟨"file", 10000000, ["http://a/file"]⟩ rfl (by decide) (by decide) rfl
  refine ⟨h.1, ?_⟩
  rw [h.2.2.2.2.2.2.1]
  decide

/-! ## The plan covers the file -/

theorem goMod_nat (i M : Nat) (hM : M ≠ 0) :
    goMod (i : Int) (M : Int) = .ok ((i % M : Nat) : Int) := by
  have h1 : (M : Int) ≠ 0 := by exact_mod_cast hM
  have h2 : Int.tmod (i : Int) (M : Int) = ((i % M : Nat) : Int) := by
    rw [Int.tmod_eq_emod (Int.ofNat_nonneg i) (Int.ofNat_nonneg M)]
    exact (Int.natCast_mod i M).symm
  simp only [goMod, h1, if_false, h2]

theorem getHostName_index (d : Downloader) (urlParse : String → Option String) (k : Nat)
    (u : String) (hu : d.File.Urls[k]? = some u) :
    getHostName d urlParse (k : Int) =
      match urlParse u with
      | some host => .ok (host, u)
      | none => .error Abort.urlParse := by
  have hk : (k : Int) ≥ 0 := Int.ofNat_nonneg k
  simp only [getHostName, hk, if_true, Int.toNat_ofNat, hu]
  cases h : urlParse u <;>
    simp [bind, Except.bind, pure, Except.pure, h, throw, throwThe, MonadExceptOf.throw]

theorem getHostName_first (d : Downloader) (urlParse : String → Option String) :
    getHostName d urlParse (-1) =
      match urlParse (d.File.Urls.headD "") with
      | some host => .ok (host, d.File.Urls.headD "")
      | none => .error Abort.urlParse := by
  have hk : ¬ ((-1 : Int) ≥ 0) := by decide
  simp only [getHostName, hk, if_false]
  generalize d.File.Urls.headD "" = u
  cases h : urlParse u <;>
    simp [bind, Except.bind, pure, Except.pure, h, throw, throwThe, MonadExceptOf.throw]

theorem executeStep_skip (d : Downloader) (urlParse : String → Option String)
    (fd : FileDetails) (n : Int) (i : Nat) (st : Planning)
    (h : (calculateChunk d i n fd).2.2 ≤ 0) :
    executeStep d urlParse fd n i st = .ok (Planning.mk (st.chunks.set i true) st.workers) := by
  simp only [executeStep, h, if_true]
  rfl

theorem executeStep_launch (d : Downloader) (urlParse : String → Option String)
    (fd : FileDetails) (n : Int) (i : Nat) (st : Planning) (u host : String)
    (h : 0 < (calculateChunk d i n fd).2.2)
    (hu : d.File.Urls[i % fd.Urls.length]? = some u) (hne : fd.Urls ≠ [])
    (hp : urlParse u = some host) :
    executeStep d urlParse fd n i st = .ok (Planning.mk (st.chunks.set i true)
      (st.workers ++ [Worker.mk i u (calculateChunk d i n fd).1 (calculateChunk d i n fd).2.1])) := by
  have hlen : fd.Urls.length ≠ 0 := fun e => hne (List.length_eq_zero.mp e)
  have hneg : ¬ ((calculateChunk d i n fd).2.2 ≤ 0) := not_le.mpr h
  simp only [executeStep, hneg, if_false, goMod_nat i fd.Urls.length hlen, bind, Except.bind,
    getHostName_index d urlParse _ u hu, hp]
  rfl

theorem getHostName_index_none (d : Downloader) (urlParse : String → Option String) (k : Nat)
    (hu : d.File.Urls[k]? = none) :
    getHostName d urlParse (k : Int) = .error Abort.indexOutOfRange := by
  have hk : (k : Int) ≥ 0 := Int.ofNat_nonneg k
  simp only [getHostName, hk, if_true, Int.toNat_ofNat, hu]
  rfl

theorem executeStep_pos (d : Downloader) (urlParse : String → Option String)
    (fd : FileDetails) (n : Int) (i : Nat) (st : Planning)
    (h : 0 < (calculateChunk d i n fd).2.2) (hne : fd.Urls ≠ []) :
    executeStep d urlParse fd n i st =
      match getHostName d urlParse ((i % fd.Urls.length : Nat) : Int) with
      | .error e => .error e
      | .ok r => .ok (Planning.mk (st.chunks.set i true)
          (st.workers ++
            [Worker.mk i r.2 (calculateChunk d i n fd).1 (calculateChunk d i n fd).2.1])) := by
  have hlen : fd.Urls.length ≠ 0 := fun e => hne (List.length_eq_zero.mp e)
  have hneg : ¬ ((calculateChunk d i n fd).2.2 ≤ 0) := not_le.mpr h
  simp only [executeStep, hneg, if_false, goMod_nat i fd.Urls.length hlen, bind, Except.bind]
  cases getHostName d urlParse ((i % fd.Urls.length : Nat) : Int) <;> rfl

theorem executeStep_inv (d : Downloader) (urlParse : String → Option String)
    (fd : FileDetails) (n : Int) (i : Nat) (st st2 : Planning)
    (h : executeStep d urlParse fd n i st = .ok st2) :
    st2.chunks = st.chunks.set i true ∧
    (((calculateChunk d i n fd).2.2 ≤ 0 ∧ st2.workers = st.workers) ∨
     (0 < (calculateChunk d i n fd).2.2 ∧ fd.Urls ≠ [] ∧
      ∃ u host, d.File.Urls[i % fd.Urls.length]? = some u ∧ urlParse u = some host ∧
        st2.workers = st.workers ++
          [Worker.mk i u (calculateChunk d i n fd).1 (calculateChunk d i n fd).2.1])) := by
  by_cases hsz : (calculateChunk d i n fd).2.2 ≤ 0
  · rw [executeStep_skip d urlParse fd n i st hsz] at h
    cases h
    exact ⟨rfl, Or.inl ⟨hsz, rfl⟩⟩
  · have hpos : 0 < (calculateChunk d i n fd).2.2 := not_le.mp hsz
    by_cases hne : fd.Urls = []
    · exfalso
      simp [executeStep, hsz, hne, goMod, bind, Except.bind] at h
    · have hlen : fd.Urls.length ≠ 0 := fun e => hne (List.length_eq_zero.mp e)
      cases hu : d.File.Urls[i % fd.Urls.length]? with
      | none =>
        exfalso
        rw [executeStep_pos d urlParse fd n i st hpos hne,
          getHostName_index_none d urlParse _ hu] at h
        cases h
      | some u =>
        cases hp : urlParse u with
        | none =>
          exfalso
          rw [executeStep_pos d urlParse fd n i st hpos hne,
            getHostName_index d urlParse _ u hu, hp] at h
          cases h
        | some host =>
          rw [executeStep_launch d urlParse fd n i st u host hpos hu hne hp] at h
          cases h
          exact ⟨rfl, Or.inr ⟨hpos, hne, u, host, rfl, hp, rfl⟩⟩

theorem executeLoop_nil (d : Downloader) (urlParse : String → Option String)
    (fd : FileDetails) (n : Int) (st : Planning) :
    executeLoop d urlParse fd n [] st = .ok st := rfl

theorem executeLoop_cons_ok (d : Downloader) (urlParse : String → Option String)
    (fd : FileDetails) (n : Int) (i : Nat) (rest : List Nat) (st st1 : Planning)
    (h : executeStep d urlParse fd n i st = .ok st1) :
    executeLoop d urlParse fd n (i :: rest) st = executeLoop d urlParse fd n rest st1 := by
  simp only [executeLoop, h, bind, Except.bind]

theorem executeLoop_cons_inv (d : Downloader) (urlParse : String → Option String)
    (fd : FileDetails) (n : Int) (i : Nat) (rest : List Nat) (st st2 : Planning)
    (h : executeLoop d urlParse fd n (i :: rest) st = .ok st2) :
    ∃ st1, executeStep d urlParse fd n i st = .ok st1 ∧
      executeLoop d urlParse fd n rest st1 = .ok st2 := by
  cases hs : executeStep d urlParse fd n i st with
  | error e => simp [executeLoop, hs, bind, Except.bind] at h
  | ok st1 =>
    rw [executeLoop_cons_ok d urlParse fd n i rest st st1 hs] at h
    exact ⟨st1, rfl, h⟩

theorem executeLoop_workers_inv (d : Downloader) (urlParse : String → Option String)
    (fd : FileDetails) (n : Int) (P : Worker → Prop) (l : List Nat)
    (hstep : ∀ i ∈ l, ∀ u host, 0 < (calculateChunk d i n fd).2.2 → fd.Urls ≠ [] →
      d.File.Urls[i % fd.Urls.length]? = some u → urlParse u = some host →
      P (Worker.mk i u (calculateChunk d i n fd).1 (calculateChunk d i n fd).2.1))
    (st st2 : Planning) (h : executeLoop d urlParse fd n l st = .ok st2)
    (hst : ∀ w ∈ st.workers, P w) : ∀ w ∈ st2.workers, P w := by
  induction l generalizing st with
  | nil =>
    rw [executeLoop_nil] at h
    cases h
    exact hst
  | cons i rest ih =>
    obtain ⟨st1, hs, hl⟩ := executeLoop_cons_inv d urlParse fd n i rest st st2 h
    apply ih (fun j hj => hstep j (List.mem_cons_of_mem i hj)) st1 hl
    obtain ⟨_, hcase⟩ := executeStep_inv d urlParse fd n i st st1 hs
    rcases hcase with ⟨_, hw⟩ | ⟨hpos, hne, u, host, hu, hp, hw⟩
    · rw [hw]
      exact hst
    · rw [hw]
      intro w hw2
      rcases List.mem_append.mp hw2 with h1 | h1
      · exact hst w h1
      · have : w = Worker.mk i u (calculateChunk d i n fd).1 (calculateChunk d i n fd).2.1 := by
          simpa using h1
        rw [this]
        exact hstep i (List.mem_cons_self i rest) u host hpos hne hu hp

theorem Execute_of_worker (d : Downloader) (urlParse : String → Option String)
    (fd : FileDetails) (n : Int) (hw : calculateConcurrentWorker d fd.Size = .ok n)
    (hn : 0 ≤ n)
    (hbar : d.SingleProgressBar = true → ∃ host, urlParse (d.File.Urls.headD "") = some host) :
    Execute d urlParse fd =
      executeLoop d urlParse fd n (List.range n.toNat)
        (Planning.mk (List.replicate n.toNat false) []) := by
  have hneg : ¬ n < 0 := not_lt.mpr hn
  cases hb : d.SingleProgressBar with
  | false =>
    simp only [Execute, hw, bind, Except.bind, hneg, if_false, hb, pure, Except.pure]
    rfl
  | true =>
    obtain ⟨host, hh⟩ := hbar hb
    simp only [Execute, hw, bind, Except.bind, hneg, if_false, hb, pure, Except.pure,
      getHostName_first, hh, if_true]

theorem Execute_inv (d : Downloader) (urlParse : String → Option String)
    (fd : FileDetails) (st : Planning) (h : Execute d urlParse fd = .ok st) :
    ∃ n : Int, calculateConcurrentWorker d fd.Size = .ok n ∧ 0 ≤ n ∧
      executeLoop d urlParse fd n (List.range n.toNat)
        (Planning.mk (List.replicate n.toNat false) []) = .ok st := by
  cases hw : calculateConcurrentWorker d fd.Size with
  | error e => simp [Execute, hw, bind, Except.bind] at h
  | ok n =>
    by_cases hn : n < 0
    · simp [Execute, hw, bind, Except.bind, hn, throw, throwThe, MonadExceptOf.throw] at h
    · refine ⟨n, rfl, not_lt.mp hn, ?_⟩
      cases hb : d.SingleProgressBar with
      | false =>
        rw [Execute_of_worker d urlParse fd n hw (not_lt.mp hn)
          (fun e => absurd (hb.symm.trans e) (by decide))] at h
        exact h
      | true =>
        cases hh : urlParse (d.File.Urls.headD "") with
        | none =>
          simp only [Execute, hw, bind, Except.bind, hn, if_false, hb, pure, Except.pure,
            getHostName_first, hh, if_true] at h
          cases h
        | some host =>
          rw [Execute_of_worker d urlParse fd n hw (not_lt.mp hn) (fun _ => ⟨host, hh⟩)] at h
          exact h

/-- C6: with one mirror list of length `M >= 1` (in the `Downloader` and in the
resolved file details) and a chunk index `i >= 0`, `Execute` computes the counter
`i % M`, `getHostName` on that counter returns the spec's `mirrors[i mod M]` as the
URL (or stops the process when that URL does not parse), the loop body for a chunk of
positive size launches the worker with that URL, and every worker `Execute` has
launched carries `mirrors[chunk mod M]`. -/
theorem mirror_round_robin (d : Downloader) (urlParse : String → Option String)
    (fd : FileDetails) (mirrors : List String) (hM : mirrors ≠ [])
    (hd : d.File.Urls = mirrors) (hfd : fd.Urls = mirrors) (i : Nat) :
    ∃ url, selectURL mirrors i = some url ∧
      goMod (i : Int) (fd.Urls.length : Int) = .ok ((i % mirrors.length : Nat) : Int) ∧
      getHostName d urlParse ((i % mirrors.length : Nat) : Int) =
        (match urlParse url with
         | some host => .ok (host, url)
         | none => .error Abort.urlParse) ∧
      (∀ (n : Int) (st : Planning), 0 < (calculateChunk d i n fd).2.2 →
        executeStep d urlParse fd n i st =
          (match urlParse url with
           | some _ => .ok (Planning.mk (st.chunks.set i true) (st.workers ++
              [Worker.mk i url (calculateChunk d i n fd).1 (calculateChunk d i n fd).2.1]))
           | none => .error Abort.urlParse)) ∧
      (∀ st, Execute d urlParse fd = .ok st →
        ∀ w ∈ st.workers, ∃ k : Nat, w.chunk = k ∧ selectURL mirrors k = some w.fileUrl) := by
  have hlen : mirrors.length ≠ 0 := fun e => hM (List.length_eq_zero.mp e)
  have hlt : i % mirrors.length < mirrors.length := Nat.mod_lt i (Nat.pos_of_ne_zero hlen)
  have hget : mirrors[i % mirrors.length]? = some (mirrors[i % mirrors.length]) :=
    List.getElem?_eq_getElem hlt
  have hu : d.File.Urls[i % mirrors.length]? = some (mirrors[i % mirrors.length]) := by
    rw [hd]
    exact hget
  have hhost := getHostName_index d urlParse (i % mirrors.length) _ hu
  refine ⟨mirrors[i % mirrors.length], hget, ?_, hhost, ?_, ?_⟩
  · rw [hfd]
    exact goMod_nat i mirrors.length hlen
  · intro n st hpos
    rw [executeStep_pos d urlParse fd n i st hpos (by rw [hfd]; exact hM), hfd, hhost]
    cases urlParse (mirrors[i % mirrors.length]) <;> rfl
  · intro st hst
    obtain ⟨n, _, _, hloop⟩ := Execute_inv d urlParse fd st hst
    apply executeLoop_workers_inv d urlParse fd n
      (fun w => ∃ k : Nat, w.chunk = k ∧ selectURL mirrors k = some w.fileUrl)
      (List.range n.toNat) ?_ _ st hloop
    · intro w hw
      cases hw
    · intro j _ u host _ _ hju _
      refine ⟨j, rfl, ?_⟩
      rw [hfd, hd] at hju
      exact hju

theorem mirror_round_robin_witness :
    selectURL ["http://a/f", "http://b/f", "http://c/f"] 4 = some "http://b/f" ∧
    getHostName ⟨⟨"f", 10, ["http://a/f", "http://b/f", "http://c/f"]⟩, 2, 5, false⟩ some
      ((4 % 3 : Nat) : Int) = .ok ("http://b/f", "http://b/f") ∧
    (Execute ⟨⟨"f", 10, ["http://a/f", "http://b/f", "http://c/f"]⟩, 2, 5, false⟩ some
      ⟨"f", 10, ["http://a/f", "http://b/f", "http://c/f"]⟩).map
        (fun st => st.workers.map (fun w => (w.chunk, w.fileUrl))) =
      .ok [(0, "http://a/f"), (1, "http://b/f"), (2, "http://c/f"), (3, "http://a/f"),
        (4, "http://b/f")] := by
  obtain ⟨url, h1, _, h3, _, _⟩ :=
    mirror_round_robin ⟨⟨"f", 10, ["http://a/f", "http://b/f", "http://c/f"]⟩, 2, 5, false⟩
      some ⟨"f", 10, ["http://a/f", "http://b/f", "http://c/f"]⟩
      ["http://a/f", "http://b/f", "http://c/f"] (by decide) rfl rfl 4
  have hurl : url = "http://b/f" := by
    have h : selectURL ["http://a/f", "http://b/f", "http://c/f"] 4 = some "http://b/f" := by
      decide
    rw [h] at h1
    exact (Option.some.inj h1).symm
  subst hurl
  exact ⟨h1, h3, by decide⟩

theorem downloadWorker_unfold (net : Nat → Attempt) (fileUrl : String) (s e : Int) :
    DownloadWorker net fileUrl s e =
      downloadLoop net fileUrl s e [0, 1, 2] (WorkerRun.mk 0 [] [] none) := rfl

/-- C7: when every attempt gets as far as reading the body: if the three reads fail,
the worker makes three range requests, sends nothing and returns; if the first read
that succeeds is that of attempt `k` (`1 <= k <= 3`), it makes `k` requests, sends that
body once and returns. Whatever the network does, it makes at most three requests
and sends at most once. Every request carries the same URL and range. -/
theorem worker_retry (net : Nat → Attempt) (fileUrl : String) (s e : Int) :
    ((∀ i : Nat, i < 3 → net i = Attempt.readFails) →
      DownloadWorker net fileUrl s e =
        WorkerRun.mk 3 (List.replicate 3 (fileUrl, s, e)) [] none) ∧
    (∀ (k : Nat) (data : List Nat), 1 ≤ k → k ≤ 3 →
      (∀ j : Nat, j + 1 < k → net j = Attempt.readFails) →
      net (k - 1) = Attempt.readOk data →
      DownloadWorker net fileUrl s e =
        WorkerRun.mk k (List.replicate k (fileUrl, s, e)) [data] none) ∧
    (DownloadWorker net fileUrl s e).requests.length ≤ 3 ∧
    (DownloadWorker net fileUrl s e).attempts ≤ 3 ∧
    (DownloadWorker net fileUrl s e).sent.length ≤ 1 := by
  rw [downloadWorker_unfold]
  refine ⟨?_, ?_, ?_⟩
  · intro h
    simp [downloadLoop, h 0 (by decide), h 1 (by decide), h 2 (by decide), List.replicate]
  · intro k data hk1 hk3 hfail hok
    interval_cases k
    · simp [downloadLoop, hok, List.replicate]
    · have h0 := hfail 0 (by decide)
      simp only [Nat.add_one_sub_one] at hok
      simp [downloadLoop, hok, h0, List.replicate]
    · have h0 := hfail 0 (by decide)
      have h1 := hfail 1 (by decide)
      simp only [Nat.add_one_sub_one] at hok
      simp [downloadLoop, hok, h0, h1, List.replicate]
  · cases h0 : net 0 <;> cases h1 : net 1 <;> cases h2 : net 2 <;>
      simp [downloadLoop, h0, h1, h2]

theorem worker_retry_witness :
    DownloadWorker (fun _ => Attempt.readFails) "http://a/f" 0 9 =
      WorkerRun.mk 3 (List.replicate 3 ("http://a/f", 0, 9)) [] none ∧
    DownloadWorker (fun i => if i < 1 then Attempt.readFails else Attempt.readOk [7, 8])
      "http://a/f" 0 9 =
      WorkerRun.mk 2 (List.replicate 2 ("http://a/f", 0, 9)) [[7, 8]] none := by
  constructor
  · exact (worker_retry (fun _ => Attempt.readFails) "http://a/f" 0 9).1 (fun _ _ => rfl)
  · exact (worker_retry (fun i => if i < 1 then Attempt.readFails else Attempt.readOk [7, 8])
      "http://a/f" 0 9).2.1 2 [7, 8] (by decide) (by decide)
      (fun j hj => by
        have : j = 0 := by omega
        subst this
        rfl) rfl

/-- C8: if attempt `k` (`1 <= k <= 3`) is reached, that is the body reads of the
attempts before it failed, and building its request or performing it fails, the
worker takes the fatal exit during attempt `k`: it has begun `k` attempts and no more,
has sent nothing, and has made the requests of the earlier attempts only (plus the
failed one when it is `Do` that fails). -/
theorem worker_fatal_no_retry (net : Nat → Attempt) (fileUrl : String) (s e : Int)
    (k : Nat) (hk1 : 1 ≤ k) (hk3 : k ≤ 3)
    (hfail : ∀ j : Nat, j + 1 < k → net j = Attempt.readFails) :
    (net (k - 1) = Attempt.newRequestFails →
      DownloadWorker net fileUrl s e =
        WorkerRun.mk k (List.replicate (k - 1) (fileUrl, s, e)) []
          (some Abort.requestCreate)) ∧
    (net (k - 1) = Attempt.doFails →
      DownloadWorker net fileUrl s e =
        WorkerRun.mk k (List.replicate k (fileUrl, s, e)) [] (some Abort.requestDo)) := by
  rw [downloadWorker_unfold]
  interval_cases k
  · constructor <;> intro hbad <;> simp [downloadLoop, hbad, List.replicate]
  · have h0 := hfail 0 (by decide)
    constructor <;> intro hbad <;> simp only [Nat.add_one_sub_one] at hbad <;>
      simp [downloadLoop, hbad, h0, List.replicate]
  · have h0 := hfail 0 (by decide)
    have h1 := hfail 1 (by decide)
    constructor <;> intro hbad <;> simp only [Nat.add_one_sub_one] at hbad <;>
      simp [downloadLoop, hbad, h0, h1, List.replicate]

theorem worker_fatal_no_retry_witness :
    DownloadWorker (fun i => if i < 1 then Attempt.readFails else Attempt.doFails)
      "http://a/f" 0 9 =
      WorkerRun.mk 2 (List.replicate 2 ("http://a/f", 0, 9)) [] (some Abort.requestDo) ∧
    DownloadWorker (fun _ => Attempt.newRequestFails) "http://a/f" 0 9 =
      WorkerRun.mk 1 [] [] (some Abort.requestCreate) := by
  constructor
  · exact (worker_fatal_no_retry
      (fun i => if i < 1 then Attempt.readFails else Attempt.doFails) "http://a/f" 0 9 2
      (by decide) (by decide)
      (fun j hj => by
        have : j = 0 := by omega
        subst this
        rfl)).2 rfl
  · exact (worker_fatal_no_retry (fun _ => Attempt.newRequestFails) "http://a/f" 0 9 1
      (by decide) (by decide) (fun j hj => absurd hj (by omega))).1 rfl

/-! ## `int64` arithmetic -/

theorem wrap64_of_inInt64 (x : Int) (h : inInt64 x) : wrap64 x = x := by
  unfold inInt64 at h
  unfold wrap64
  omega

theorem chk64_of_inInt64 (x : Int) (h : inInt64 x) : chk64 x = some x := by
  simp [chk64, h]

theorem auto_chunk_bounds (d : Downloader) (fd : FileDetails) (n i : Int)
    (h0 : d.NumberOfChunks = 0) (hcs : 0 < d.ChunkSize)
    (hsz : d.File.Size = fd.Size) (hn : calculateConcurrentWorker d fd.Size = .ok n)
    (hi0 : 0 ≤ i) (hin : i < n) :
    0 ≤ i * d.ChunkSize ∧
    (i * d.ChunkSize + d.ChunkSize ≤ fd.Size ∨
      (i = 0 ∧ n = 1 ∧ fd.Size < d.ChunkSize)) ∧
    (n ≤ fd.Size ∨ n = 1) := by
  have hnn : 0 ≤ i * d.ChunkSize := mul_nonneg hi0 (le_of_lt hcs)
  by_cases hlt : fd.Size < d.ChunkSize
  · rw [worker_auto_small d fd.Size h0 hlt] at hn
    have hn1 : n = 1 := (Except.ok.inj hn).symm
    refine ⟨hnn, Or.inr ⟨by omega, hn1, hlt⟩, Or.inr hn1⟩
  · rw [worker_auto_large d fd.Size h0 hcs (not_lt.mp hlt) hsz] at hn
    have hn1 : n = fd.Size / d.ChunkSize := (Except.ok.inj hn).symm
    obtain ⟨hq1, _, _⟩ := auto_quotient_bounds fd.Size d.ChunkSize hcs
    rw [← hn1] at hq1
    have h1 : (i + 1) * d.ChunkSize ≤ n * d.ChunkSize :=
      mul_le_mul_of_nonneg_right (by omega) (le_of_lt hcs)
    have h2 : (i + 1) * d.ChunkSize = i * d.ChunkSize + d.ChunkSize := by ring
    have h3 : n * 1 ≤ n * d.ChunkSize :=
      mul_le_mul_of_nonneg_left (by omega) (by omega)
    refine ⟨hnn, Or.inl (by omega), Or.inl (by omega)⟩

/-- C10: in auto mode with `0 < chunkSize <= 2^63 - 1`, `0 <= fileSize <= 2^63 - 1` and
`File.Size = fileSize`, the worker count `n` is at least 1 and is computed without
a zero divisor or overflow; for every chunk index `0 <= i < n` each operator of
`calculateChunk` (`i * ChunkSize`, `+ ChunkSize`, `- 1`, `i + 1`, `Size - 1`,
`endByte - startByte`, `+ 1`) has an exact result inside `int64`, so the checked
evaluation succeeds and both it and the wrapping `int64` evaluation give the
exact-integer result. -/
theorem int64_no_overflow (d : Downloader) (fd : FileDetails)
    (h0 : d.NumberOfChunks = 0) (hcs : 0 < d.ChunkSize)
    (hcsmax : d.ChunkSize ≤ (2 : Int) ^ 63 - 1) (hfs : 0 ≤ fd.Size)
    (hfsmax : fd.Size ≤ (2 : Int) ^ 63 - 1) (hsz : d.File.Size = fd.Size) :
    ∃ n : Int, calculateConcurrentWorker d fd.Size = .ok n ∧ 1 ≤ n ∧ inInt64 n ∧
      calculateConcurrentWorkerChecked d fd.Size = some n ∧
      calculateConcurrentWorker64 d fd.Size = .ok n ∧
      ∀ i : Int, 0 ≤ i → i < n →
        inInt64 (i * d.ChunkSize) ∧
        inInt64 (i * d.ChunkSize + d.ChunkSize) ∧
        inInt64 (i * d.ChunkSize + d.ChunkSize - 1) ∧
        inInt64 (i + 1) ∧
        inInt64 (fd.Size - 1) ∧
        inInt64 ((calculateChunk d i n fd).2.1 - (calculateChunk d i n fd).1) ∧
        inInt64 ((calculateChunk d i n fd).2.1 - (calculateChunk d i n fd).1 + 1) ∧
        calculateChunkChecked d i n fd = some (calculateChunk d i n fd) ∧
        calculateChunk64 d i n fd = calculateChunk d i n fd := by
  obtain ⟨n, hn, hn1⟩ := worker_pos d fd.Size (by omega) hcs hsz
  have hnle : n ≤ fd.Size ∨ n = 1 :=
    (auto_chunk_bounds d fd n 0 h0 hcs hsz hn (le_refl 0) (by omega)).2.2
  have hnin : inInt64 n := by
    unfold inInt64
    constructor <;> omega
  refine ⟨n, hn, hn1, hnin, ?_, ?_, ?_⟩
  · by_cases hlt : fd.Size < d.ChunkSize
    · rw [worker_auto_small d fd.Size h0 hlt] at hn
      rw [← Except.ok.inj hn]
      simp [calculateConcurrentWorkerChecked, h0, hlt]
    · rw [worker_auto_large d fd.Size h0 hcs (not_lt.mp hlt) hsz] at hn
      have hq : Int.tdiv fd.Size d.ChunkSize = n := by
        rw [Int.tdiv_eq_ediv hfs (le_of_lt hcs)]
        exact Except.ok.inj hn
      have hne : d.ChunkSize ≠ 0 := by omega
      simp [calculateConcurrentWorkerChecked, h0, hlt, hne, hsz, hq, chk64_of_inInt64 n hnin]
  · by_cases hlt : fd.Size < d.ChunkSize
    · rw [worker_auto_small d fd.Size h0 hlt] at hn
      rw [← Except.ok.inj hn]
      simp [calculateConcurrentWorker64, h0, hlt]
    · rw [worker_auto_large d fd.Size h0 hcs (not_lt.mp hlt) hsz] at hn
      have hq : Int.tdiv fd.Size d.ChunkSize = n := by
        rw [Int.tdiv_eq_ediv hfs (le_of_lt hcs)]
        exact Except.ok.inj hn
      have hne : d.ChunkSize ≠ 0 := by omega
      simp [calculateConcurrentWorker64, h0, hlt, hne, hsz, hq, goDiv, Except.map,
        wrap64_of_inInt64 n hnin]
  · intro i hi0 hin
    obtain ⟨hs0, hfit, _⟩ := auto_chunk_bounds d fd n i h0 hcs hsz hn hi0 hin
    have hsum : i * d.ChunkSize + d.ChunkSize ≤ (2 : Int) ^ 63 - 1 := by
      rcases hfit with h | ⟨hz, _, _⟩
      · omega
      · rw [hz]
        omega
    have b1 : inInt64 (i * d.ChunkSize) := by
      unfold inInt64
      constructor <;> omega
    have b2 : inInt64 (i * d.ChunkSize + d.ChunkSize) := by
      unfold inInt64
      constructor <;> omega
    have b3 : inInt64 (i * d.ChunkSize + d.ChunkSize - 1) := by
      unfold inInt64
      constructor <;> omega
    have b4 : inInt64 (i + 1) := by
      unfold inInt64
      constructor <;> omega
    have b5 : inInt64 (fd.Size - 1) := by
      unfold inInt64
      constructor <;> omega
    by_cases hc : i + 1 = n ∨ i * d.ChunkSize + d.ChunkSize - 1 > fd.Size - 1
    · have hval : calculateChunk d i n fd =
          (i * d.ChunkSize, fd.Size - 1, fd.Size - 1 - i * d.ChunkSize + 1) := by
        simp only [calculateChunk, hc, if_true]
      have b6 : inInt64 (fd.Size - 1 - i * d.ChunkSize) := by
        unfold inInt64
        constructor <;> omega
      have b7 : inInt64 (fd.Size - 1 - i * d.ChunkSize + 1) := by
        unfold inInt64
        constructor <;> omega
      rw [hval]
      refine ⟨b1, b2, b3, b4, b5, b6, b7, ?_, ?_⟩
      · by_cases hlast : i + 1 = n
        · simp [calculateChunkChecked, chk64_of_inInt64 _ b1, chk64_of_inInt64 _ b2,
            chk64_of_inInt64 _ b3, chk64_of_inInt64 _ b4, chk64_of_inInt64 _ b5,
            chk64_of_inInt64 _ b6, chk64_of_inInt64 _ b7, hlast, chk64_of_inInt64 n hnin]
        · have hgt : fd.Size - 1 < i * d.ChunkSize + d.ChunkSize - 1 := by
            rcases hc with h | h
            · exact absurd h hlast
            · exact h
          simp [calculateChunkChecked, chk64_of_inInt64 _ b1, chk64_of_inInt64 _ b2,
            chk64_of_inInt64 _ b3, chk64_of_inInt64 _ b4, chk64_of_inInt64 _ b5,
            chk64_of_inInt64 _ b6, chk64_of_inInt64 _ b7, hlast, hgt]
      · simp only [calculateChunk64, wrap64_of_inInt64 _ b1, wrap64_of_inInt64 _ b2,
          wrap64_of_inInt64 _ b3, wrap64_of_inInt64 _ b4, wrap64_of_inInt64 _ b5, hc, if_true,
          wrap64_of_inInt64 _ b6, wrap64_of_inInt64 _ b7]
    · have hval : calculateChunk d i n fd =
          (i * d.ChunkSize, i * d.ChunkSize + d.ChunkSize - 1,
            i * d.ChunkSize + d.ChunkSize - 1 - i * d.ChunkSize + 1) := by
        simp only [calculateChunk, hc, if_false]
      have b6 : inInt64 (i * d.ChunkSize + d.ChunkSize - 1 - i * d.ChunkSize) := by
        unfold inInt64
        constructor <;> omega
      have b7 : inInt64 (i * d.ChunkSize + d.ChunkSize - 1 - i * d.ChunkSize + 1) := by
        unfold inInt64
        constructor <;> omega
      have hlast : i + 1 ≠ n := fun e => hc (Or.inl e)
      have hgt : ¬ fd.Size - 1 < i * d.ChunkSize + d.ChunkSize - 1 := fun e => hc (Or.inr e)
      rw [hval]
      refine ⟨b1, b2, b3, b4, b5, b6, b7, ?_, ?_⟩
      · simp [calculateChunkChecked, chk64_of_inInt64 _ b1, chk64_of_inInt64 _ b2,
          chk64_of_inInt64 _ b3, chk64_of_inInt64 _ b4, chk64_of_inInt64 _ b5,
          chk64_of_inInt64 _ b6, chk64_of_inInt64 _ b7, hlast, hgt]
      · simp only [calculateChunk64, wrap64_of_inInt64 _ b1, wrap64_of_inInt64 _ b2,
          wrap64_of_inInt64 _ b3, wrap64_of_inInt64 _ b4, wrap64_of_inInt64 _ b5, hc, if_false,
          wrap64_of_inInt64 _ b6, wrap64_of_inInt64 _ b7]

theorem int64_no_overflow_witness :
    calculateConcurrentWorker64
      ⟨⟨"f", 9223372036854775807, ["http://a/f"]⟩, 3074457345618258602, 0, false⟩
      9223372036854775807 = .ok 3 ∧
    calculateChunk64
      ⟨⟨"f", 9223372036854775807, ["http://a/f"]⟩, 3074457345618258602, 0, false⟩ 2 3
      ⟨"f", 9223372036854775807, ["http://a/f"]⟩ =
      (6148914691236517204, 9223372036854775806, 3074457345618258603) ∧
    calculateChunkChecked
      ⟨⟨"f", 9223372036854775807, ["http://a/f"]⟩, 3074457345618258602, 0, false⟩ 2 3
      ⟨"f", 9223372036854775807, ["http://a/f"]⟩ =
      some (6148914691236517204, 9223372036854775806, 3074457345618258603) := by
  obtain ⟨n, hn, _, _, _, h64, hall⟩ :=
    int64_no_overflow
      ⟨⟨"f", 9223372036854775807, ["http://a/f"]⟩, 3074457345618258602, 0, false⟩
      ⟨"f", 9223372036854775807, ["http://a/f"]⟩ rfl (by decide) (by decide) (by decide)
      (by decide) rfl
  have h3 : n = 3 := by
    have h : calculateConcurrentWorker
      ⟨⟨"f", 9223372036854775807, ["http://a/f"]⟩, 3074457345618258602, 0, false⟩
      9223372036854775807 = .ok 3 := by decide
    rw [h] at hn
    exact (Except.ok.inj hn).symm
  subst h3
  obtain ⟨_, _, _, _, _, _, _, hck, hwr⟩ := hall 2 (by decide) (by decide)
  refine ⟨h64, ?_, ?_⟩
  · rw [hwr]
    decide
  · rw [hck]
    decide

/-! ## Closed instances -/

/-- C2 at `File.Size = 0`, `ChunkSize = 5`, no explicit count and the argument
`fileSize = 10`: the code returns `File.Size / ChunkSize = 0`, not
`fileSize / ChunkSize = 2`; with `File.Size = 10` instead it returns 2. -/
theorem worker_count_uses_field :
    calculateConcurrentWorker ⟨⟨"f", 0, ["http://a/f"]⟩, 5, 0, false⟩ 10 = .ok 0 ∧
    goDiv 10 5 = .ok 2 ∧
    calculateConcurrentWorker ⟨⟨"f", 10, ["http://a/f"]⟩, 5, 0, false⟩ 10 = .ok 2 := by
  decide

end Core
